import Mathlib

/-!
Shallow embedding of the GMM / EM estimator (src/gmm/algorithm.py) and
verification of the specification claims about it.

The numpy float arrays of the source are modelled as real-valued functions:
a length-`D` vector is `Fin D → ℝ`, a `D × D` matrix is
`Matrix (Fin D) (Fin D) ℝ`, and the parameter state of the estimator is the
structure `GMM K D` below.  The unbounded `while True` loop of `fit` is
modelled with explicit fuel, returning `none` when the fuel is exhausted
before the convergence check fires.
-/

open Matrix Real

noncomputable section

/-- The mutable parameter state owned by the estimator, as set up by
`GMM.__init__`: an array of `K` mean vectors, `K` covariance matrices, the
vector of mixing probabilities and the convergence threshold.
`no_components` of the source is the type index `K = covariances.shape[0]`. -/
structure GMM (K D : ℕ) where
  means : Fin K → Fin D → ℝ
  covariances : Fin K → Matrix (Fin D) (Fin D) ℝ
  mixing_probs : Fin K → ℝ
  epsilon : ℝ

/-- `multivariate_normal_pdf` of the source: density of `x` under
`(mean, covariance)`.  The exponent is `np.dot(np.dot(centered.T, cov_inverse),
centered)` and the normaliser is `np.sqrt(cov_det * np.power(2 * np.pi,
self.no_components))`, i.e. the power is the mixture component count passed as
`no_components`, not the dimension `D`. -/
def multivariate_normal_pdf (no_components : ℕ) {D : ℕ} (x mean : Fin D → ℝ)
    (covariance : Matrix (Fin D) (Fin D) ℝ) : ℝ :=
  let centered := x - mean
  let cov_inverse := covariance⁻¹
  let cov_det := covariance.det
  let exponent := dotProduct (Matrix.vecMul centered cov_inverse) centered
  Real.exp (-0.5 * exponent) / Real.sqrt (cov_det * (2 * Real.pi) ^ no_components)

variable {K D N : ℕ}

/-- The density matrix `norm_densities[i][j]` filled at the top of every
iteration of `fit`. -/
def normDensities (s : GMM K D) (features : Fin N → Fin D → ℝ)
    (i : Fin N) (j : Fin K) : ℝ :=
  multivariate_normal_pdf K (features i) (s.means j) (s.covariances j)

/-- `np.dot(self.mixing_probs.T, norm_densities[i])`: the mixture density of
feature `i`, used both in the log-likelihood and as the E-step denominator. -/
def mixDensity (s : GMM K D) (features : Fin N → Fin D → ℝ) (i : Fin N) : ℝ :=
  dotProduct s.mixing_probs (fun j => normDensities s features i j)

/-- `np.dot(log_vector.T, np.ones(n))`: the total log-likelihood of the
feature set under the current parameters. -/
def logLikelihood (s : GMM K D) (features : Fin N → Fin D → ℝ) : ℝ :=
  ∑ i, Real.log (mixDensity s features i)

/-- The E-step: `responsibilities[i][j] = mixing_probs[j] * norm_densities[i][j]
/ denominator` with `denominator = np.dot(mixing_probs.T, norm_densities[i])`. -/
def eStep (s : GMM K D) (features : Fin N → Fin D → ℝ)
    (i : Fin N) (j : Fin K) : ℝ :=
  s.mixing_probs j * normDensities s features i j / mixDensity s features i

/-- One step of the M-step loop body for component `j`: commit the new mean,
then compute the covariance from `difference = features - np.tile(self.means[i],
(n, 1))`, which reads the just-committed mean, then the mixing probability. -/
def mStepComp (resp : Fin N → Fin K → ℝ) (features : Fin N → Fin D → ℝ)
    (j : Fin K) (s : GMM K D) : GMM K D :=
  let denominator := ∑ i, resp i j
  let means' := Function.update s.means j
    (fun d => (∑ i, resp i j * features i d) / denominator)
  let difference : Fin N → Fin D → ℝ := fun i d => features i d - means' j d
  { means := means'
    covariances := Function.update s.covariances j
      (Matrix.of fun d e =>
        (∑ i, resp i j * difference i d * difference i e) / denominator)
    mixing_probs := Function.update s.mixing_probs j (denominator / (N : ℝ))
    epsilon := s.epsilon }

/-- The whole M-step: `for i in np.arange(self.no_components)` applied
sequentially, in index order, threading the mutated state. -/
def mStep (resp : Fin N → Fin K → ℝ) (features : Fin N → Fin D → ℝ)
    (s : GMM K D) : GMM K D :=
  (List.finRange K).foldl (fun t j => mStepComp resp features j t) s

/-- One full E-step + M-step of the `fit` loop (executed only when the
convergence check fails).  The responsibilities are the array filled by the
E-step from the current parameters and are fixed during the M-step. -/
def emUpdate (features : Fin N → Fin D → ℝ) (s : GMM K D) : GMM K D :=
  mStep (eStep s features) features s

/-- The `while True` loop of `fit`, with fuel.  Each pass recomputes the
densities and the log-likelihood from the current state, compares against
`old_log_likelihood`, and either breaks (returning the untouched state) or
runs the E/M update and loops with the new comparator. -/
def fitGo (features : Fin N → Fin D → ℝ) : ℕ → ℝ → GMM K D → Option (GMM K D)
  | 0, _, _ => none
  | fuel + 1, old_log_likelihood, s =>
    if |logLikelihood s features - old_log_likelihood| < s.epsilon then some s
    else fitGo features fuel (logLikelihood s features) (emUpdate features s)

/-- `fit`: the loop entered with `old_log_likelihood = 0`. -/
def fit (fuel : ℕ) (features : Fin N → Fin D → ℝ) (s : GMM K D) :
    Option (GMM K D) :=
  fitGo features fuel 0 s

/-- `GMM.multivariate_normal_pdf` is nonnegative: a nonnegative exponential
divided by a nonnegative square root. -/
theorem multivariate_normal_pdf_nonneg (no_components : ℕ) {Dv : ℕ}
    (x mean : Fin Dv → ℝ) (covariance : Matrix (Fin Dv) (Fin Dv) ℝ) :
    0 ≤ multivariate_normal_pdf no_components x mean covariance :=
  div_nonneg (Real.exp_pos _).le (Real.sqrt_nonneg _)

/-- Claim C1: for every `D`-dimensional `x`, `mean` and invertible `D × D`
covariance `Σ`, the density evaluator returns
`exp(-0.5 · (x-mean)ᵀ Σ⁻¹ (x-mean)) / sqrt(det Σ · (2π)^K)` where `K` is the
mixture component count (not `D`), and the value is a nonnegative real. -/
theorem multivariate_normal_pdf_spec (Kc : ℕ) {Dv : ℕ} (x mean : Fin Dv → ℝ)
    (covariance : Matrix (Fin Dv) (Fin Dv) ℝ) (_hinv : IsUnit covariance.det) :
    multivariate_normal_pdf Kc x mean covariance
      = Real.exp (-0.5 * dotProduct (x - mean)
            (Matrix.mulVec covariance⁻¹ (x - mean)))
          / Real.sqrt (covariance.det * (2 * Real.pi) ^ Kc)
    ∧ 0 ≤ multivariate_normal_pdf Kc x mean covariance := by
  refine ⟨?_, multivariate_normal_pdf_nonneg Kc x mean covariance⟩
  unfold multivariate_normal_pdf
  rw [Matrix.dotProduct_mulVec]

/-- Witness for claim C1 at the concrete input `K = 1`, `D = 1`, `x = mean = 0`
and identity covariance, whose determinant is a unit. -/
theorem multivariate_normal_pdf_spec_witness :
    IsUnit (1 : Matrix (Fin 1) (Fin 1) ℝ).det
    ∧ (@multivariate_normal_pdf 1 1 (fun _ => (0 : ℝ)) (fun _ => 0)
          (1 : Matrix (Fin 1) (Fin 1) ℝ)
        = Real.exp (-0.5 * dotProduct ((fun _ => (0 : ℝ)) - fun _ => 0)
              (Matrix.mulVec (1 : Matrix (Fin 1) (Fin 1) ℝ)⁻¹
                ((fun _ => (0 : ℝ)) - fun _ => 0)))
            / Real.sqrt ((1 : Matrix (Fin 1) (Fin 1) ℝ).det * (2 * Real.pi) ^ 1)
      ∧ 0 ≤ @multivariate_normal_pdf 1 1 (fun _ => (0 : ℝ)) (fun _ => 0) 1) :=
  ⟨by simp, multivariate_normal_pdf_spec 1 _ _ _ (by simp)⟩

/-- The scan of `np.argmin` over a length-`len` array: `bi` is the index of the
current minimum, `i` the next index to examine, `rem` the number of entries
left; the best index is replaced only on a strictly smaller value, so ties
keep the lowest index. -/
def argminGo (d : ℕ → ℝ) : ℕ → ℕ → ℕ → ℕ
  | 0, _, bi => bi
  | rem + 1, i, bi => argminGo d rem (i + 1) (if d i < d bi then i else bi)

/-- `np.argmin` over entries `d 0, …, d (len - 1)`: start with index `0` as
the current minimum and scan the remaining `len - 1` entries. -/
def npArgmin (d : ℕ → ℝ) (len : ℕ) : ℕ :=
  argminGo d (len - 1) 1 0

lemma argminGo_spec (d : ℕ → ℝ) :
    ∀ (rem i bi : ℕ), bi < i →
      (∀ k, k < i → d bi ≤ d k) → (∀ k, k < bi → d bi < d k) →
      argminGo d rem i bi < i + rem
      ∧ (∀ k, k < i + rem → d (argminGo d rem i bi) ≤ d k)
      ∧ (∀ k, k < argminGo d rem i bi → d (argminGo d rem i bi) < d k) := by
  intro rem
  induction rem with
  | zero =>
    intro i bi hbi hmin hstrict
    simp only [argminGo]
    exact ⟨by omega, fun k hk => hmin k (by omega), hstrict⟩
  | succ rem ih =>
    intro i bi hbi hmin hstrict
    simp only [argminGo]
    by_cases hc : d i < d bi
    · rw [if_pos hc]
      have h := ih (i + 1) i (by omega)
        (fun k hk => by
          rcases Nat.lt_succ_iff_lt_or_eq.mp hk with hk' | hk'
          · exact (lt_of_lt_of_le hc (hmin k hk')).le
          · exact hk' ▸ le_refl _)
        (fun k hk => lt_of_lt_of_le hc (hmin k hk))
      exact ⟨by omega, fun k hk => h.2.1 k (by omega), h.2.2⟩
    · rw [if_neg hc]
      have h := ih (i + 1) bi (by omega)
        (fun k hk => by
          rcases Nat.lt_succ_iff_lt_or_eq.mp hk with hk' | hk'
          · exact hmin k hk'
          · exact hk' ▸ not_lt.mp hc)
        hstrict
      exact ⟨by omega, fun k hk => h.2.1 k (by omega), h.2.2⟩

/-- Specification of the `np.argmin` model on a nonempty array: the result is
in range, attains the minimum, and every strictly earlier index has a strictly
larger value (stable argmin). -/
lemma npArgmin_spec (d : ℕ → ℝ) (len : ℕ) (hlen : 0 < len) :
    npArgmin d len < len
    ∧ (∀ k, k < len → d (npArgmin d len) ≤ d k)
    ∧ (∀ k, k < npArgmin d len → d (npArgmin d len) < d k) := by
  have h := argminGo_spec d (len - 1) 1 0 (by omega)
    (fun k hk => by
      have : k = 0 := by omega
      exact this ▸ le_refl _)
    (fun k hk => absurd hk (Nat.not_lt_zero k))
  have hlen' : 1 + (len - 1) = len := by omega
  rw [hlen'] at h
  exact h

/-- Multiplying every entry by a positive constant does not change the scan of
`np.argmin`. -/
lemma argminGo_mul_left (c : ℝ) (hc : 0 < c) (d : ℕ → ℝ) :
    ∀ (rem i bi : ℕ), argminGo (fun k => c * d k) rem i bi = argminGo d rem i bi := by
  intro rem
  induction rem with
  | zero => intro i bi; rfl
  | succ rem ih =>
    intro i bi
    simp only [argminGo]
    by_cases h : d i < d bi
    · rw [if_pos h, if_pos ((mul_lt_mul_left hc).mpr h), ih]
    · rw [if_neg h, if_neg (fun hcon => h ((mul_lt_mul_left hc).mp hcon)), ih]

lemma npArgmin_mul_left (c : ℝ) (hc : 0 < c) (d : ℕ → ℝ) (len : ℕ) :
    npArgmin (fun k => c * d k) len = npArgmin d len := by
  unfold npArgmin
  exact argminGo_mul_left c hc d (len - 1) 1 0

/-- The "Mahalanobis" distance of `cluster`:
`np.dot(np.dot((x - means[j]).T, cov_inverses[j]), x - means[j])`, where
`cov_inverses[j]` is in fact `np.linalg.det(covariances[j])`, a scalar, so the
first `np.dot` is a scalar multiplication. -/
def distancesAt (s : GMM K D) (x : Fin D → ℝ) (j : Fin K) : ℝ :=
  dotProduct ((s.covariances j).det • (x - s.means j)) (x - s.means j)

/-- The distance array of `cluster` as a total function on ℕ; indices past
`K` are never consulted by the argmin scan on a length-`K` array. -/
def distNat (s : GMM K D) (x : Fin D → ℝ) (j : ℕ) : ℝ :=
  if h : j < K then distancesAt s x ⟨j, h⟩ else 0

/-- `cluster`: each feature point is assigned the `np.argmin` of its distance
array. -/
def cluster (s : GMM K D) (features : Fin N → Fin D → ℝ) (i : Fin N) : ℕ :=
  npArgmin (distNat s (features i)) K

/-- The translation of the `cluster` method as a state transformer: the body
only reads `self.means`, `self.covariances` and `self.no_components`, writes
only the local arrays `partition`, `distances`, `cov_inverses`, and returns
the partition, leaving the parameter state exactly as received. -/
def clusterRun (s : GMM K D) (features : Fin N → Fin D → ℝ) :
    (Fin N → ℕ) × GMM K D :=
  (cluster s features, s)

/-- A concrete one-point, one-dimensional feature matrix (the single feature
vector is `[0]`), used to instantiate hypotheses of the claims. -/
def exFeatures : Fin 1 → Fin 1 → ℝ := fun _ _ => 0

/-- A concrete one-component, one-dimensional parameter state with identity
covariance, unit mixing weight and `epsilon = 1`. -/
def oneState : GMM 1 1 :=
  { means := fun _ _ => 0
    covariances := fun _ => 1
    mixing_probs := fun _ => 1
    epsilon := 1 }

/-- A variant of `oneState` that differs only in the mixing weights and the
convergence threshold. -/
def oneStateVar : GMM 1 1 :=
  { means := fun _ _ => 0
    covariances := fun _ => 1
    mixing_probs := fun _ => 5
    epsilon := 3 }

/-- A concrete one-component state whose covariance matrix `[[2]]` has
determinant `2`. -/
def detState : GMM 1 1 :=
  { means := fun _ _ => 0
    covariances := fun _ => Matrix.of fun _ _ => 2
    mixing_probs := fun _ => 1
    epsilon := 1 }

/-- Claim C2: `cluster` computes for each feature `x` and component `j` the
distance `d_j = (x - mean_j)ᵀ · det(Σ_j) · (x - mean_j)` (determinant as a
scalar multiplier), assigns the stable argmin (ties to the lowest index), and
every returned assignment lies in `[0, K)`. -/
theorem cluster_spec (s : GMM K D) (features : Fin N → Fin D → ℝ)
    (hK : 0 < K) (i : Fin N) :
    cluster s features i < K
    ∧ (∀ j : Fin K, distancesAt s (features i) j
        = (s.covariances j).det
          * dotProduct (features i - s.means j) (features i - s.means j))
    ∧ (∀ k, k < K →
        distNat s (features i) (cluster s features i) ≤ distNat s (features i) k)
    ∧ (∀ k, k < cluster s features i →
        distNat s (features i) (cluster s features i) < distNat s (features i) k) := by
  have h := npArgmin_spec (distNat s (features i)) K hK
  refine ⟨h.1, fun j => ?_, h.2.1, h.2.2⟩
  unfold distancesAt
  rw [Matrix.smul_dotProduct]
  simp [smul_eq_mul]

/-- Witness for claim C2 on a concrete one-component, one-dimensional state. -/
theorem cluster_spec_witness :
    (0 : ℕ) < 1
    ∧ (cluster oneState exFeatures 0 < 1
      ∧ (∀ j : Fin 1, distancesAt oneState (exFeatures 0) j
          = (oneState.covariances j).det
            * dotProduct (exFeatures 0 - oneState.means j) (exFeatures 0 - oneState.means j))
      ∧ (∀ k, k < 1 →
          distNat oneState (exFeatures 0) (cluster oneState exFeatures 0)
            ≤ distNat oneState (exFeatures 0) k)
      ∧ (∀ k, k < cluster oneState exFeatures 0 →
          distNat oneState (exFeatures 0) (cluster oneState exFeatures 0)
            < distNat oneState (exFeatures 0) k)) :=
  ⟨by norm_num, cluster_spec oneState exFeatures (by norm_num) 0⟩

/-- Modelled from the claim's words: the nearest-mean assignment, the stable
argmin over components of the squared Euclidean distance
`‖x - mean_j‖² = (x - mean_j) ⬝ᵥ (x - mean_j)`, compared with `cluster`. -/
def nearestMeanAssign (means : Fin K → Fin D → ℝ)
    (features : Fin N → Fin D → ℝ) (i : Fin N) : ℕ :=
  npArgmin
    (fun j => if h : j < K then
      dotProduct (features i - means ⟨j, h⟩) (features i - means ⟨j, h⟩) else 0) K

/-- Claim C10: if every covariance has the same determinant `c > 0`, the
partition returned by `cluster` is exactly the nearest-mean assignment, since
each distance is `c` times the squared Euclidean distance and a positive
scaling preserves the stable argmin. -/
theorem cluster_eq_nearestMeanAssign (s : GMM K D)
    (features : Fin N → Fin D → ℝ) (c : ℝ) (hc : 0 < c)
    (hdet : ∀ j, (s.covariances j).det = c) :
    cluster s features = nearestMeanAssign s.means features := by
  funext i
  unfold cluster nearestMeanAssign
  have hfun : distNat s (features i)
      = fun j => c * (if h : j < K then
          dotProduct (features i - s.means ⟨j, h⟩) (features i - s.means ⟨j, h⟩)
        else 0) := by
    funext j
    unfold distNat
    by_cases h : j < K
    · rw [dif_pos h, dif_pos h]
      unfold distancesAt
      rw [Matrix.smul_dotProduct, hdet ⟨j, h⟩, smul_eq_mul]
    · rw [dif_neg h, dif_neg h, mul_zero]
  rw [hfun, npArgmin_mul_left c hc]

/-- Witness for claim C10: a state whose single covariance matrix has
determinant `2 > 0`. -/
theorem cluster_eq_nearestMeanAssign_witness :
    (0 : ℝ) < 2
    ∧ (∀ j : Fin 1, ((detState.covariances j).det = 2))
    ∧ cluster detState exFeatures = nearestMeanAssign detState.means exFeatures :=
  ⟨by norm_num, fun j => by simp [detState, Matrix.det_fin_one],
    cluster_eq_nearestMeanAssign detState exFeatures 2 (by norm_num)
      (fun j => by simp [detState, Matrix.det_fin_one])⟩

/-- Claim C9: `cluster` leaves the parameter state unchanged, returns exactly
the partition, and reads only the current means and covariances: two states
agreeing on means and covariances produce the same partition. -/
theorem cluster_no_side_effects (s t : GMM K D) (features : Fin N → Fin D → ℝ)
    (hm : t.means = s.means) (hcov : t.covariances = s.covariances) :
    (clusterRun s features).2 = s
    ∧ (clusterRun s features).1 = cluster s features
    ∧ cluster t features = cluster s features := by
  refine ⟨rfl, rfl, ?_⟩
  funext i
  unfold cluster distNat distancesAt
  rw [hm, hcov]

/-- Witness for claim C9: a second state sharing means and covariances with
`oneState` but with different mixing weights and epsilon yields the same
partition, and running `cluster` returns the state unchanged. -/
theorem cluster_no_side_effects_witness :
    (clusterRun oneState exFeatures).2 = oneState
    ∧ (clusterRun oneState exFeatures).1 = cluster oneState exFeatures
    ∧ cluster oneStateVar exFeatures = cluster oneState exFeatures :=
  cluster_no_side_effects oneState oneStateVar exFeatures rfl rfl

/-- Claim C3: `fit` enters the loop with `old_log_likelihood = 0`; each pass
stops exactly when `|logLikelihood - old_log_likelihood| < epsilon`, returning
the parameters frozen in the state that produced that log-likelihood (no
E-step or M-step of the stopping iteration), and otherwise runs the E/M
update and iterates with the new comparator. -/
theorem fit_convergence_check (features : Fin N → Fin D → ℝ) (fuel : ℕ)
    (old : ℝ) (s : GMM K D) :
    fit fuel features s = fitGo features fuel 0 s
    ∧ fitGo features (fuel + 1) old s
        = (if |logLikelihood s features - old| < s.epsilon then some s
           else fitGo features fuel (logLikelihood s features) (emUpdate features s)) :=
  ⟨rfl, rfl⟩

/-- The value committed to `means[j]` by the M-step. -/
def updMean (resp : Fin N → Fin K → ℝ) (features : Fin N → Fin D → ℝ)
    (j : Fin K) : Fin D → ℝ :=
  fun d => (∑ i, resp i j * features i d) / ∑ i, resp i j

/-- The value committed to `covariances[j]` by the M-step: it is centred on
`updMean`, the mean committed just before for the same component. -/
def updCov (resp : Fin N → Fin K → ℝ) (features : Fin N → Fin D → ℝ)
    (j : Fin K) : Matrix (Fin D) (Fin D) ℝ :=
  Matrix.of fun d e =>
    (∑ i, resp i j * (features i d - updMean resp features j d)
        * (features i e - updMean resp features j e)) / ∑ i, resp i j

lemma mStepComp_means_self (resp : Fin N → Fin K → ℝ)
    (features : Fin N → Fin D → ℝ) (j : Fin K) (s : GMM K D) :
    (mStepComp resp features j s).means j = updMean resp features j := by
  unfold mStepComp updMean
  simp [Function.update_same]

lemma mStepComp_covariances_self (resp : Fin N → Fin K → ℝ)
    (features : Fin N → Fin D → ℝ) (j : Fin K) (s : GMM K D) :
    (mStepComp resp features j s).covariances j = updCov resp features j := by
  unfold mStepComp updCov updMean
  simp [Function.update_same]

lemma mStepComp_mixing_self (resp : Fin N → Fin K → ℝ)
    (features : Fin N → Fin D → ℝ) (j : Fin K) (s : GMM K D) :
    (mStepComp resp features j s).mixing_probs j = (∑ i, resp i j) / (N : ℝ) := by
  unfold mStepComp
  simp [Function.update_same]

lemma mStepComp_ne (resp : Fin N → Fin K → ℝ) (features : Fin N → Fin D → ℝ)
    (a j : Fin K) (s : GMM K D) (h : j ≠ a) :
    (mStepComp resp features a s).means j = s.means j
    ∧ (mStepComp resp features a s).covariances j = s.covariances j
    ∧ (mStepComp resp features a s).mixing_probs j = s.mixing_probs j := by
  unfold mStepComp
  simp [Function.update_noteq h]

lemma mStepComp_epsilon (resp : Fin N → Fin K → ℝ)
    (features : Fin N → Fin D → ℝ) (a : Fin K) (s : GMM K D) :
    (mStepComp resp features a s).epsilon = s.epsilon := rfl

/-- Characterisation of the sequential M-step fold: a component visited by the
loop carries the update formulas (which depend only on the fixed
responsibilities and features, not on the intermediate states); an unvisited
component is untouched. -/
lemma mStep_foldl (resp : Fin N → Fin K → ℝ) (features : Fin N → Fin D → ℝ)
    (l : List (Fin K)) (s : GMM K D) (j : Fin K) :
    ((l.foldl (fun t j' => mStepComp resp features j' t) s).means j
        = if j ∈ l then updMean resp features j else s.means j)
    ∧ ((l.foldl (fun t j' => mStepComp resp features j' t) s).covariances j
        = if j ∈ l then updCov resp features j else s.covariances j)
    ∧ ((l.foldl (fun t j' => mStepComp resp features j' t) s).mixing_probs j
        = if j ∈ l then (∑ i, resp i j) / (N : ℝ) else s.mixing_probs j)
    ∧ (l.foldl (fun t j' => mStepComp resp features j' t) s).epsilon = s.epsilon := by
  induction l generalizing s with
  | nil => simp
  | cons a l ih =>
    simp only [List.foldl_cons, List.mem_cons]
    rcases ih (mStepComp resp features a s) with ⟨hm, hcv, hw, he⟩
    rw [hm, hcv, hw, he, mStepComp_epsilon]
    by_cases hj : j ∈ l
    · simp [hj]
    · by_cases hja : j = a
      · subst hja
        simp [hj, mStepComp_means_self, mStepComp_covariances_self,
          mStepComp_mixing_self]
      · rcases mStepComp_ne resp features a j s hja with ⟨h1, h2, h3⟩
        simp [hj, hja, h1, h2, h3]

lemma mStep_means (resp : Fin N → Fin K → ℝ) (features : Fin N → Fin D → ℝ)
    (s : GMM K D) (j : Fin K) :
    (mStep resp features s).means j = updMean resp features j := by
  have h := (mStep_foldl resp features (List.finRange K) s j).1
  rwa [if_pos (List.mem_finRange j)] at h

lemma mStep_covariances (resp : Fin N → Fin K → ℝ)
    (features : Fin N → Fin D → ℝ) (s : GMM K D) (j : Fin K) :
    (mStep resp features s).covariances j = updCov resp features j := by
  have h := (mStep_foldl resp features (List.finRange K) s j).2.1
  rwa [if_pos (List.mem_finRange j)] at h

lemma mStep_mixing (resp : Fin N → Fin K → ℝ) (features : Fin N → Fin D → ℝ)
    (s : GMM K D) (j : Fin K) :
    (mStep resp features s).mixing_probs j = (∑ i, resp i j) / (N : ℝ) := by
  have h := (mStep_foldl resp features (List.finRange K) s j).2.2.1
  rwa [if_pos (List.mem_finRange j)] at h

/-- Claim C4: in every M-step of `fit`, for each component `j`, the committed
mean is `(Σ_i r_ij·x_i) / Nj`, the committed covariance is computed from the
just-updated mean of the same component, and the committed mixing weight is
`Nj / N`, where `r` is the E-step responsibility matrix of this iteration. -/
theorem m_step_update_order (features : Fin N → Fin D → ℝ) (s : GMM K D)
    (j : Fin K) :
    (emUpdate features s).means j
      = (fun d => (∑ i, eStep s features i j * features i d)
          / ∑ i, eStep s features i j)
    ∧ (emUpdate features s).covariances j
      = (Matrix.of fun d e =>
          (∑ i, eStep s features i j
              * (features i d - (emUpdate features s).means j d)
              * (features i e - (emUpdate features s).means j e))
            / ∑ i, eStep s features i j)
    ∧ (emUpdate features s).mixing_probs j
      = (∑ i, eStep s features i j) / (N : ℝ) := by
  unfold emUpdate
  rw [mStep_means, mStep_covariances, mStep_mixing]
  exact ⟨rfl, rfl, rfl⟩

/-- The covariance committed by the M-step is symmetric: its `(d, e)` and
`(e, d)` entries are the same sum of products. -/
lemma updCov_isSymm (resp : Fin N → Fin K → ℝ) (features : Fin N → Fin D → ℝ)
    (j : Fin K) : (updCov resp features j).IsSymm := by
  unfold Matrix.IsSymm updCov
  ext d e
  simp only [Matrix.transpose_apply, Matrix.of_apply]
  congr 1
  apply Finset.sum_congr rfl
  intro i _
  ring

/-- A successful run of the fit loop returns either the state it began with
(immediate convergence) or the result of a final E/M update. -/
lemma fitGo_some_cases (features : Fin N → Fin D → ℝ) :
    ∀ (fuel : ℕ) (old : ℝ) (s s' : GMM K D),
      fitGo features fuel old s = some s' →
      s' = s ∨ ∃ t, s' = emUpdate features t := by
  intro fuel
  induction fuel with
  | zero => intro old s s' h; simp [fitGo] at h
  | succ fuel ih =>
    intro old s s' h
    simp only [fitGo] at h
    by_cases hc : |logLikelihood s features - old| < s.epsilon
    · rw [if_pos hc] at h
      exact Or.inl (Option.some.inj h).symm
    · rw [if_neg hc] at h
      rcases ih _ _ _ h with h' | h'
      · exact Or.inr ⟨s, h'⟩
      · exact Or.inr h'

/-- Claim C6: when `fit` returns having run at least one M-step, every
covariance matrix in the final state is symmetric (and otherwise the state is
exactly the initial one). -/
theorem covariances_symmetric_after_fit (features : Fin N → Fin D → ℝ)
    (fuel : ℕ) (s s' : GMM K D) (hfit : fit fuel features s = some s') :
    s' = s ∨ ∀ j, (s'.covariances j).IsSymm := by
  rcases fitGo_some_cases features fuel 0 s s' hfit with h | ⟨t, ht⟩
  · exact Or.inl h
  · refine Or.inr fun j => ?_
    rw [ht]
    unfold emUpdate
    rw [mStep_covariances]
    exact updCov_isSymm _ _ _

lemma two_pi_ne_zero : (2 * Real.pi) ≠ 0 := by positivity

/-- A 1×1 covariance matrix equal to `[[1/(2π)]]`, chosen so that the density
of the point `0` under mean `0` is exactly `1`. -/
def exCov : Matrix (Fin 1) (Fin 1) ℝ := Matrix.of fun _ _ => (2 * Real.pi)⁻¹

/-- A concrete valid one-component state (unit mixing weight, `epsilon = 1`)
on which the first convergence check of `fit` fires immediately. -/
def exState : GMM 1 1 :=
  { means := fun _ _ => 0
    covariances := fun _ => exCov
    mixing_probs := fun _ => 1
    epsilon := 1 }

lemma exState_density (i j : Fin 1) : normDensities exState exFeatures i j = 1 := by
  have hcent : exFeatures i - exState.means j = 0 := by
    funext d
    simp [exFeatures, exState]
  unfold normDensities multivariate_normal_pdf
  rw [hcent]
  have hdet : (exState.covariances j).det = (2 * Real.pi)⁻¹ := by
    simp [exState, exCov, Matrix.det_fin_one]
  rw [hdet]
  simp only [Matrix.zero_vecMul, Matrix.zero_dotProduct, mul_zero,
    Real.exp_zero, pow_one]
  rw [inv_mul_cancel₀ two_pi_ne_zero, Real.sqrt_one, div_one]

lemma exState_mixDensity (i : Fin 1) : mixDensity exState exFeatures i = 1 := by
  unfold mixDensity
  simp only [dotProduct, exState_density, mul_one]
  simp [exState]

lemma exState_logLikelihood : logLikelihood exState exFeatures = 0 := by
  unfold logLikelihood
  simp [exState_mixDensity]

lemma exState_check : |logLikelihood exState exFeatures - 0| < exState.epsilon := by
  rw [exState_logLikelihood]
  norm_num [exState]

lemma exState_fit : fit 1 exFeatures exState = some exState := by
  unfold fit
  show fitGo exFeatures (0 + 1) 0 exState = some exState
  simp only [fitGo]
  rw [if_pos exState_check]

/-- Witness for claim C6: a concrete converging run of `fit`. -/
theorem covariances_symmetric_after_fit_witness :
    exState = exState ∨ ∀ j, (exState.covariances j).IsSymm :=
  covariances_symmetric_after_fit exFeatures 1 exState exState exState_fit

lemma mixDensity_eq_sum (s : GMM K D) (features : Fin N → Fin D → ℝ)
    (i : Fin N) :
    mixDensity s features i
      = ∑ j, s.mixing_probs j * normDensities s features i j := rfl

lemma emUpdate_mixing (features : Fin N → Fin D → ℝ) (s : GMM K D) (j : Fin K) :
    (emUpdate features s).mixing_probs j
      = (∑ i, eStep s features i j) / (N : ℝ) :=
  mStep_mixing _ _ _ _

/-- Core of the M-step weight invariant: entering an E/M update with
nonnegative weights and nonzero denominators, the committed mixing weights
are probabilities summing to one. -/
lemma emUpdate_mixing_valid (features : Fin N → Fin D → ℝ) (s : GMM K D)
    (hw : ∀ j, 0 ≤ s.mixing_probs j) (hsum : ∑ j, s.mixing_probs j = 1)
    (hmix : ∀ i, mixDensity s features i ≠ 0)
    (hNj : ∀ j, (∑ i, eStep s features i j) ≠ 0) :
    (∀ j, 0 ≤ (emUpdate features s).mixing_probs j
      ∧ (emUpdate features s).mixing_probs j ≤ 1)
    ∧ ∑ j, (emUpdate features s).mixing_probs j = 1 := by
  have hK : 0 < K := by
    rcases Nat.eq_zero_or_pos K with h0 | h
    · exfalso; subst h0; simp at hsum
    · exact h
  have hd : ∀ (i : Fin N) (j : Fin K), 0 ≤ normDensities s features i j :=
    fun i j => multivariate_normal_pdf_nonneg K _ _ _
  have hmixnn : ∀ i, 0 ≤ mixDensity s features i := by
    intro i
    rw [mixDensity_eq_sum]
    exact Finset.sum_nonneg fun j _ => mul_nonneg (hw j) (hd i j)
  have hr : ∀ i j, 0 ≤ eStep s features i j := by
    intro i j
    unfold eStep
    exact div_nonneg (mul_nonneg (hw j) (hd i j)) (hmixnn i)
  have hrow : ∀ i, ∑ j, eStep s features i j = 1 := by
    intro i
    unfold eStep
    rw [← Finset.sum_div, ← mixDensity_eq_sum]
    exact div_self (hmix i)
  have hNsum : ∑ j, (∑ i, eStep s features i j) = (N : ℝ) := by
    rw [Finset.sum_comm, Finset.sum_congr rfl fun i _ => hrow i]
    simp
  have hNpos : (0 : ℝ) < (N : ℝ) := by
    rcases Nat.eq_zero_or_pos N with h0 | h
    · exfalso
      refine hNj ⟨0, hK⟩ ?_
      subst h0
      simp
    · exact_mod_cast h
  constructor
  · intro j
    rw [emUpdate_mixing]
    constructor
    · exact div_nonneg (Finset.sum_nonneg fun i _ => hr i j) hNpos.le
    · rw [div_le_one hNpos]
      calc ∑ i, eStep s features i j
          ≤ ∑ j', ∑ i, eStep s features i j' :=
            Finset.single_le_sum
              (fun j' _ => Finset.sum_nonneg fun i _ => hr i j')
              (Finset.mem_univ j)
        _ = (N : ℝ) := hNsum
  · rw [Finset.sum_congr rfl fun j _ => emUpdate_mixing features s j,
      ← Finset.sum_div, hNsum, div_self hNpos.ne']

/-- The states of a run of the fit loop at which the convergence check fails,
so that the E-step and M-step are actually executed with that state's
denominators. -/
def fitSteps (features : Fin N → Fin D → ℝ) :
    ℕ → ℝ → GMM K D → GMM K D → Prop
  | 0, _, _, _ => False
  | fuel + 1, old, s, t =>
    ¬ |logLikelihood s features - old| < s.epsilon
    ∧ (t = s
      ∨ fitSteps features fuel (logLikelihood s features) (emUpdate features s) t)

lemma fitGo_mixing_invariant (features : Fin N → Fin D → ℝ) :
    ∀ (fuel : ℕ) (old : ℝ) (s s' : GMM K D),
      fitGo features fuel old s = some s' →
      ((∀ j, 0 ≤ s.mixing_probs j ∧ s.mixing_probs j ≤ 1)
        ∧ ∑ j, s.mixing_probs j = 1) →
      (∀ t, fitSteps features fuel old s t →
        (∀ i, mixDensity t features i ≠ 0)
        ∧ ∀ j, (∑ i, eStep t features i j) ≠ 0) →
      (((∀ j, 0 ≤ s'.mixing_probs j ∧ s'.mixing_probs j ≤ 1)
        ∧ ∑ j, s'.mixing_probs j = 1)
      ∧ ∀ t, fitSteps features fuel old s t →
          ((∀ j, 0 ≤ (emUpdate features t).mixing_probs j
            ∧ (emUpdate features t).mixing_probs j ≤ 1)
          ∧ ∑ j, (emUpdate features t).mixing_probs j = 1)) := by
  intro fuel
  induction fuel with
  | zero => intro old s s' h hP hden; simp [fitGo] at h
  | succ fuel ih =>
    intro old s s' h hP hden
    simp only [fitGo] at h
    by_cases hc : |logLikelihood s features - old| < s.epsilon
    · rw [if_pos hc] at h
      exact ⟨(Option.some.inj h) ▸ hP, fun t ht => absurd hc ht.1⟩
    · rw [if_neg hc] at h
      have hcond := hden s ⟨hc, Or.inl rfl⟩
      have hstep := emUpdate_mixing_valid features s
        (fun j => (hP.1 j).1) hP.2 hcond.1 hcond.2
      have hstep' : (∀ j, 0 ≤ (emUpdate features s).mixing_probs j
          ∧ (emUpdate features s).mixing_probs j ≤ 1)
          ∧ ∑ j, (emUpdate features s).mixing_probs j = 1 := hstep
      have ihres := ih (logLikelihood s features) (emUpdate features s) s' h
        hstep' (fun t ht => hden t ⟨hc, Or.inr ht⟩)
      refine ⟨ihres.1, fun t ht => ?_⟩
      rcases ht.2 with rfl | ht'
      · exact hstep
      · exact ihres.2 t ht'

/-- Claim C5 (amended): provided the mixing weights supplied to `fit` are
probabilities summing to one, then whenever `fit` returns, the final mixing
weights each lie in `[0, 1]` and sum exactly to one, and the same holds after
every completed M-step of the run, given that every E-step denominator
`mix[i]` and every effective count `Nj` arising in an executed iteration was
nonzero. -/
theorem mixing_weights_valid_after_fit (features : Fin N → Fin D → ℝ)
    (fuel : ℕ) (s s' : GMM K D)
    (hinit : (∀ j, 0 ≤ s.mixing_probs j ∧ s.mixing_probs j ≤ 1)
      ∧ ∑ j, s.mixing_probs j = 1)
    (hden : ∀ t, fitSteps features fuel 0 s t →
      (∀ i, mixDensity t features i ≠ 0)
      ∧ ∀ j, (∑ i, eStep t features i j) ≠ 0)
    (hfit : fit fuel features s = some s') :
    ((∀ j, 0 ≤ s'.mixing_probs j ∧ s'.mixing_probs j ≤ 1)
      ∧ ∑ j, s'.mixing_probs j = 1)
    ∧ ∀ t, fitSteps features fuel 0 s t →
        ((∀ j, 0 ≤ (emUpdate features t).mixing_probs j
          ∧ (emUpdate features t).mixing_probs j ≤ 1)
        ∧ ∑ j, (emUpdate features t).mixing_probs j = 1) :=
  fitGo_mixing_invariant features fuel 0 s s' hfit hinit hden

/-- Witness for the amended claim C5: a concrete converging run from valid
initial weights in which no iteration has a zero denominator. -/
theorem mixing_weights_valid_after_fit_witness :
    ((∀ j, 0 ≤ exState.mixing_probs j ∧ exState.mixing_probs j ≤ 1)
      ∧ ∑ j, exState.mixing_probs j = 1)
    ∧ ∀ t, fitSteps exFeatures 1 0 exState t →
        ((∀ j, 0 ≤ (emUpdate exFeatures t).mixing_probs j
          ∧ (emUpdate exFeatures t).mixing_probs j ≤ 1)
        ∧ ∑ j, (emUpdate exFeatures t).mixing_probs j = 1) :=
  mixing_weights_valid_after_fit exFeatures 1 exState exState
    ⟨fun _j => ⟨zero_le_one, le_refl 1⟩, by simp [exState]⟩
    (fun _t ht => absurd exState_check ht.1)
    exState_fit

/-- A state violating no hypothesis of claim C5 as stated: shapes are valid,
the initial weight `sqrt(2π)` is a perfectly legal caller-supplied array
entry, and every denominator that arises is nonzero. -/
def badState : GMM 1 1 :=
  { means := fun _ _ => 0
    covariances := fun _ => 1
    mixing_probs := fun _ => Real.sqrt (2 * Real.pi)
    epsilon := 1 }

lemma sqrt_two_pi_pos : 0 < Real.sqrt (2 * Real.pi) :=
  Real.sqrt_pos.mpr (by positivity)

lemma badState_density (i j : Fin 1) :
    normDensities badState exFeatures i j = (Real.sqrt (2 * Real.pi))⁻¹ := by
  have hcent : exFeatures i - badState.means j = 0 := by
    funext d
    simp [exFeatures, badState]
  unfold normDensities multivariate_normal_pdf
  rw [hcent]
  have hdet : (badState.covariances j).det = 1 := by simp [badState]
  rw [hdet]
  simp only [Matrix.zero_vecMul, Matrix.zero_dotProduct, mul_zero,
    Real.exp_zero, pow_one, one_mul]
  rw [one_div]

lemma badState_mixDensity (i : Fin 1) : mixDensity badState exFeatures i = 1 := by
  rw [mixDensity_eq_sum]
  simp only [badState_density]
  rw [Fin.sum_univ_one]
  show Real.sqrt (2 * Real.pi) * (Real.sqrt (2 * Real.pi))⁻¹ = 1
  exact mul_inv_cancel₀ sqrt_two_pi_pos.ne'

lemma badState_logLikelihood : logLikelihood badState exFeatures = 0 := by
  unfold logLikelihood
  simp [badState_mixDensity]

lemma badState_check :
    |logLikelihood badState exFeatures - 0| < badState.epsilon := by
  rw [badState_logLikelihood]
  norm_num [badState]

lemma badState_fit : fit 1 exFeatures badState = some badState := by
  unfold fit
  show fitGo exFeatures (0 + 1) 0 badState = some badState
  simp only [fitGo]
  rw [if_pos badState_check]

/-- Counterexample to claim C5 as stated: with caller-supplied initial weight
`sqrt(2π)` (valid shapes, every `mix[i]` and `Nj` at the visited state
nonzero), `fit` converges on its very first check, executes no M-step, and
returns with a mixing weight vector that does not sum to 1. -/
theorem mixing_sum_after_fit_counterexample :
    fit 1 exFeatures badState = some badState
    ∧ mixDensity badState exFeatures 0 ≠ 0
    ∧ (∑ i, eStep badState exFeatures i 0) ≠ 0
    ∧ (∑ j, badState.mixing_probs j) ≠ 1 := by
  refine ⟨badState_fit, ?_, ?_, ?_⟩
  · rw [badState_mixDensity]
    exact one_ne_zero
  · have h1 : ∀ i : Fin 1, eStep badState exFeatures i 0 = 1 := by
      intro i
      unfold eStep
      rw [badState_density, badState_mixDensity, div_one]
      show Real.sqrt (2 * Real.pi) * (Real.sqrt (2 * Real.pi))⁻¹ = 1
      exact mul_inv_cancel₀ sqrt_two_pi_pos.ne'
    rw [Fin.sum_univ_one, h1]
    exact one_ne_zero
  · rw [Fin.sum_univ_one]
    show badState.mixing_probs 0 ≠ 1
    simp only [badState]
    rw [Ne, Real.sqrt_eq_one]
    nlinarith [Real.pi_gt_three]

/-- Shape-untyped view of the parameter arrays, for reasoning about the
constructor's (absent) shape validation: numpy arrays of possibly mismatched
lengths, as plain lists. -/
structure GMMData where
  means : List (List ℝ)
  covariances : List (List (List ℝ))
  mixing_probs : List ℝ
  no_components : ℕ
  epsilon : ℝ

/-- `GMM.__init__`: stores the caller's arrays verbatim and sets
`no_components = covariances.shape[0]`.  The source performs no validation of
any kind, so the translation is total: there is no failure outcome. -/
def gmmInit (means : List (List ℝ)) (covariances : List (List (List ℝ)))
    (mixing_probs : List ℝ) (epsilon : ℝ) : GMMData :=
  { means := means
    covariances := covariances
    mixing_probs := mixing_probs
    no_components := covariances.length
    epsilon := epsilon }

/-- Evidence for claim C7's status: constructing the estimator with one mean
vector, two covariance matrices and three mixing weights succeeds and simply
records the mismatched arrays, instead of failing fast at the API boundary as
the specification demands. -/
theorem gmmInit_accepts_mismatched_shapes :
    (gmmInit [[0]] [[[1]], [[1]]] [1, 1, 1] 1).no_components = 2
    ∧ (gmmInit [[0]] [[[1]], [[1]]] [1, 1, 1] 1).means.length = 1
    ∧ (gmmInit [[0]] [[[1]], [[1]]] [1, 1, 1] 1).mixing_probs.length = 3 :=
  ⟨rfl, rfl, rfl⟩

end
